import Mathlib

/-!
Verification development for the indexing and alert-suppression core of a
metrics-monitoring daemon (packages `sched` and `search` of the repository,
plus the external collaborators they use).

Go strings are modelled as `List Char` (`Str`), Go maps as association lists
(first occurrence of a key wins, insertion replaces in place), Go `float64`
values stored in an `interface\x7b\x7d` as `Option Rat` (`none` models a value that
is not a `float64`, including the zero interface value), and `time.Time` /
`int64` timestamps as `Int` (the zero value of `time.Time` is modelled by the
integer `0`).  Concurrency (locks, the deferred snapshot-publish goroutine)
is not modelled: each operation is embedded as its synchronous effect on the
state, which is what the claims quantify over.
-/

namespace Bosun

/-- Go strings, modelled as lists of characters. -/
abbrev Str := List Char

/-- Lexicographic byte-order comparison of strings, used to model
`sort.Strings`. -/
def strLe : Str → Str → Bool
  | [], _ => true
  | _ :: _, [] => false
  | a :: as, b :: bs => if a < b then true else if a = b then strLe as bs else false

/-- Insertion step of the string insertion sort. -/
def insStr (x : Str) : List Str → List Str
  | [] => [x]
  | y :: ys => if strLe x y then x :: y :: ys else y :: insStr x ys

/-- Model of `sort.Strings`: insertion sort by `strLe`. -/
def sortStrings : List Str → List Str
  | [] => []
  | x :: xs => insStr x (sortStrings xs)

/-- Model of `strings.Split` on a single separator character. -/
def splitOnChar (c : Char) : Str → List Str
  | [] => [[]]
  | d :: rest =>
    match splitOnChar c rest with
    | [] => [[d]]
    | s :: ss => if d = c then [] :: s :: ss else (d :: s) :: ss

/-- Model of `strings.Join` on a single separator character. -/
def joinSep (c : Char) : List Str → Str
  | [] => []
  | [x] => x
  | x :: xs => x ++ c :: joinSep c xs

/-- Whitespace test used by `strings.TrimSpace` (ASCII fragment). -/
def isSpaceC (c : Char) : Bool := c = ' ' || c = '\t' || c = '\n' || c = '\r'

/-- Model of `strings.TrimSpace`. -/
def trimSpace (s : Str) : Str :=
  ((s.dropWhile isSpaceC).reverse.dropWhile isSpaceC).reverse

section AList

variable {K : Type} [DecidableEq K] {V : Type}

/-- Go map read `m[k]` (comma-ok form), on the association-list model. -/
def lookupA : List (K × V) → K → Option V
  | [], _ => none
  | kv :: rest, k => if kv.1 = k then some kv.2 else lookupA rest k

/-- Go map write `m[k] = v`: replace in place if the key is present,
otherwise append. -/
def insertA : List (K × V) → K → V → List (K × V)
  | [], k, v => [(k, v)]
  | kv :: rest, k, v => if kv.1 = k then (k, v) :: rest else kv :: insertA rest k v

/-- Go `delete(m, k)`. -/
def removeA (l : List (K × V)) (k : K) : List (K × V) :=
  l.filter fun kv => !decide (kv.1 = k)

end AList

/-- Membership-preserving set insert, modelling `set[x] = struct\x7b\x7d\x7b\x7d` on a
`present` set. -/
def presAdd (l : List Str) (x : Str) : List Str :=
  if x ∈ l then l else l ++ [x]

/-- Update of a map-of-sets table: create the empty set if the key is absent,
then add the element — the `if _, ok := table[q]; !ok` + insert idiom of
`Index`. -/
def madd {K : Type} [DecidableEq K] (m : List (K × List Str)) (k : K) (x : Str) :
    List (K × List Str) :=
  match lookupA m k with
  | none => m ++ [(k, [x])]
  | some p => insertA m k (presAdd p x)

/-! ### Pattern matcher

`search.Match` translates its pattern by escaping every `.`, turning every
`*` into `.*`, anchoring with `^`/`$`, and compiling the result with Go's
`regexp` package.  The `regexp` engine is external to the repository; it is
embedded here for the fragment the translation can produce: concatenations
of literal characters, escaped dots, `.` and the postfix operators `*`, `+`,
`?`, anchored at both ends.  Any other metacharacter is treated as a compile
error (Go rejects unbalanced `(`, `[`, bare postfix operators, etc.). -/

/-- Regex atom: a literal character or `.` (any character). -/
inductive RAtom where
  | chr (c : Char)
  | dot
deriving DecidableEq

/-- Repetition marker attached to an atom. -/
inductive Rep where
  | once
  | star
  | opt
deriving DecidableEq

/-- One piece of a compiled regex: an atom with its repetition. -/
structure RPiece where
  atom : RAtom
  rep : Rep
deriving DecidableEq

/-- Compiled regex for the fragment: a sequence of pieces, implicitly
anchored at both ends. -/
abbrev Rx := List RPiece

/-- Characters with a special meaning to Go's `regexp` syntax. -/
def isMeta (c : Char) : Bool :=
  c = '\\' || c = '.' || c = '*' || c = '+' || c = '?' || c = '(' || c = ')' ||
  c = '|' || c = '[' || c = ']' || c = '{' || c = '}' || c = '^' || c = '$'

/-- Does the atom match one character. -/
def atomMatch : RAtom → Char → Bool
  | .chr c, d => c = d
  | .dot, _ => true

/-- Matching of `a*` followed by a continuation `k`: either the continuation
matches here, or one more `a` is consumed. -/
def starRun (a : RAtom) (k : Str → Bool) : Str → Bool
  | [] => k []
  | c :: cs => k (c :: cs) || (atomMatch a c && starRun a k cs)

/-- Full-string matching of a compiled regex. -/
def rxMatch : Rx → Str → Bool
  | [], s => s.isEmpty
  | ⟨a, .once⟩ :: ps, s =>
    match s with
    | [] => false
    | c :: cs => atomMatch a c && rxMatch ps cs
  | ⟨a, .opt⟩ :: ps, s =>
    match s with
    | [] => rxMatch ps []
    | c :: cs => rxMatch ps (c :: cs) || (atomMatch a c && rxMatch ps cs)
  | ⟨a, .star⟩ :: ps, s => starRun a (rxMatch ps) s

/-- Parser for the regex fragment (the body between the added anchors).
Postfix operators bind to the preceding atom; `+` is expanded to
atom-then-star. -/
def parseRxF : Nat → Str → Option Rx
  | _, [] => some []
  | 0, _ :: _ => none
  | fuel + 1, c :: rest =>
    if c = '\\' then
      match rest with
      | '.' :: r =>
        match r with
        | '*' :: r2 => (parseRxF fuel r2).map fun ps => ⟨.chr '.', .star⟩ :: ps
        | '+' :: r2 =>
          (parseRxF fuel r2).map fun ps => ⟨.chr '.', .once⟩ :: ⟨.chr '.', .star⟩ :: ps
        | '?' :: r2 => (parseRxF fuel r2).map fun ps => ⟨.chr '.', .opt⟩ :: ps
        | r2 => (parseRxF fuel r2).map fun ps => ⟨.chr '.', .once⟩ :: ps
      | _ => none
    else if isMeta c ∧ c ≠ '.' then none
    else
      let a : RAtom := if c = '.' then .dot else .chr c
      match rest with
      | '*' :: r2 => (parseRxF fuel r2).map fun ps => ⟨a, .star⟩ :: ps
      | '+' :: r2 => (parseRxF fuel r2).map fun ps => ⟨a, .once⟩ :: ⟨a, .star⟩ :: ps
      | '?' :: r2 => (parseRxF fuel r2).map fun ps => ⟨a, .opt⟩ :: ps
      | r2 => (parseRxF fuel r2).map fun ps => ⟨a, .once⟩ :: ps

/-- Entry point of the parser: one unit of fuel is spent per parsed atom and
every atom consumes at least one character, so the input's length is always
enough fuel. -/
def parseRx (s : Str) : Option Rx := parseRxF s.length s

/-- First replacement of `Match`: `strings.Replace(search, ".", "\\.", -1)`. -/
def escDots (s : Str) : Str :=
  s.flatMap fun c => if c = '.' then ['\\', '.'] else [c]

/-- Second replacement of `Match`: `strings.Replace(v, "*", ".*", -1)`. -/
def starExp (s : Str) : Str :=
  s.flatMap fun c => if c = '*' then ['.', '*'] else [c]

/-- The translated, anchored pattern `"^" + v + "$"` built by `Match`. -/
def translatePat (s : Str) : Str :=
  '^' :: (starExp (escDots s) ++ ['$'])

/-- Model of `regexp.Compile` on the anchored strings `Match` produces:
strip the anchors and parse the body. -/
def reCompile : Str → Option Rx
  | '^' :: rest =>
    if rest.getLast? = some '$' then parseRx rest.dropLast else none
  | _ => none

/-- Embedding of `search.Match`: translate, compile, and return the matching
candidates in their original order (`none` is the compile-error return). -/
def Match (search : Str) (values : List Str) : Option (List Str) :=
  match reCompile (translatePat search) with
  | none => none
  | some rx => some (values.filter fun v => rxMatch rx v)

/-- Modelled from the spec: `sched.Match(pattern, value)` (not under `src/`)
is the same Pattern Matcher applied to a single candidate, returning
`(matched, err)`; the silence engine discards the error, so a compile error
behaves as a failed match. -/
def matchOne (search v : Str) : Bool :=
  match reCompile (translatePat search) with
  | none => false
  | some rx => rxMatch rx v

/-- Matching of a glob `*` followed by a continuation `k`: the continuation
must match some suffix of the string. -/
def globStar (k : Str → Bool) : Str → Bool
  | [] => k []
  | c :: cs => k (c :: cs) || globStar k cs

/-- Claim-side definition, following the specification's words: the pattern
with `.` read as a literal character and `*` as zero or more of any
character, anchored at both ends. -/
def globSpec : Str → Str → Bool
  | [], s => s.isEmpty
  | c :: p, s =>
    if c = '*' then globStar (globSpec p) s
    else
      match s with
      | [] => false
      | d :: ds => c = d && globSpec p ds

/-- Characters on which the translated pattern compiles to the pure glob
fragment: `.`, `*`, and anything without regex meaning. -/
def safeChar (c : Char) : Bool := c = '.' || c = '*' || !isMeta c

/-- Patterns made only of `safeChar` characters. -/
def safePat (p : Str) : Bool := p.all safeChar

/-- The compiled form a safe glob pattern parses to: `*` becomes a starred
dot, every other character a literal atom. -/
def globPieces : Str → Rx
  | [] => []
  | c :: p =>
    (if c = '*' then (⟨.dot, .star⟩ : RPiece) else ⟨.chr c, .once⟩) :: globPieces p

/-- Strings that do not start with a postfix repetition operator. -/
def noPostfixHead (t : Str) : Prop :=
  t = [] ∨ ∃ d r, t = d :: r ∧ d ≠ '*' ∧ d ≠ '+' ∧ d ≠ '?'

/-! ### Search index data model (`package search`) -/

/-- Tag set of a data point: key-value pairs, keys unique; the list order
stands in for Go's (irrelevant here) map iteration order. -/
abbrev TagSet := List (Str × Str)

/-- The composite key type of `qmap` (`struct \x7b A, B string \x7d`). -/
abbrev Duple := Str × Str

/-- One observed measurement.  `Value` is Go's `interface\x7b\x7d`: `some q` models
a `float64`, `none` models any non-`float64` content including the zero
interface value. -/
structure DataPoint where
  Metric : Str
  Timestamp : Int
  Value : Option Rat
  Tags : TagSet
deriving DecidableEq

/-- The zero `opentsdb.DataPoint`, as stored in a fresh `pair`. -/
def zeroDataPoint : DataPoint := ⟨[], 0, none, []⟩

/-- A distinct (metric, tag set) series identity. -/
structure MetricTagSet where
  Metric : Str
  Tags : TagSet
deriving DecidableEq

/-- Insertion step of the tag sort used by the canonical tag-set string. -/
def insertTag (kv : Str × Str) : TagSet → TagSet
  | [] => [kv]
  | x :: xs => if strLe kv.1 x.1 then kv :: x :: xs else x :: insertTag kv xs

/-- Sort tags by key, modelling the key sort inside `TagSet.String()`. -/
def sortTags : TagSet → TagSet
  | [] => []
  | kv :: rest => insertTag kv (sortTags rest)

/-- Modelled from the spec: the canonical string form of a tag set produced
by the external `opentsdb.TagSet.String()` — `\x7bk=v,k2=v2\x7d` with keys
sorted. -/
def tagsString (t : TagSet) : Str :=
  '{' :: (joinSep ',' ((sortTags t).map fun kv => kv.1 ++ '=' :: kv.2) ++ ['}'])

/-- Embedding of `mts.key()`: metric concatenated with the canonical string
form of the tag set. -/
def MetricTagSet.key (mts : MetricTagSet) : Str :=
  mts.Metric ++ tagsString mts.Tags

/-- The last-two-points ring buffer of one series (`type pair`). -/
structure Pair where
  x0 : DataPoint
  x1 : DataPoint
  index : Nat
deriving DecidableEq

/-- Read `p.points[i]` (slots are addressed modulo 2). -/
def Pair.get (p : Pair) (i : Nat) : DataPoint :=
  if i % 2 = 0 then p.x0 else p.x1

/-- Write `p.points[i] = d`. -/
def Pair.set (p : Pair) (i : Nat) (d : DataPoint) : Pair :=
  if i % 2 = 0 then { p with x0 := d } else { p with x1 := d }

/-- A fresh `new(pair)`: two zero points, index 0. -/
def zeroPair : Pair := ⟨zeroDataPoint, zeroDataPoint, 0⟩

/-- The four derived tables, as held by the published snapshot (`s.read`
points to a `Search` whose only populated fields are these tables). -/
structure SearchTables where
  Metric : List (Duple × List Str)
  Tagk : List (Str × List Str)
  Tagv : List (Duple × List Str)
  MetricTags : List (Str × MetricTagSet)
deriving DecidableEq

/-- Tables of a fresh `new(Search)` (all nil maps). -/
def emptyTables : SearchTables := ⟨[], [], [], []⟩

/-- The search index state.  `copy` is the publish-scheduled guard; the
deferred snapshot publish itself runs asynchronously and is therefore not
part of the synchronous `Index` step modelled here. -/
structure Search where
  Metric : List (Duple × List Str)
  Tagk : List (Str × List Str)
  Tagv : List (Duple × List Str)
  MetricTags : List (Str × MetricTagSet)
  Last : List (Str × Pair)
  read : SearchTables
  copy : Bool
deriving DecidableEq

/-- Embedding of `NewSearch()`. -/
def NewSearch : Search := ⟨[], [], [], [], [], emptyTables, false⟩

/-- Embedding of `Search.Copy()`: publish the four live tables as the new
snapshot. -/
def Search.Copy (s : Search) : Search :=
  { s with read := ⟨s.Metric, s.Tagk, s.Tagv, s.MetricTags⟩ }

/-- The per-tag-pair table updates inside `Index`'s inner loop. -/
def tagStep (metric : Str) (s : Search) (kv : Str × Str) : Search :=
  let s1 := { s with Metric := madd s.Metric (kv.1, kv.2) metric }
  let s2 := { s1 with Tagk := madd s1.Tagk metric kv.1 }
  { s2 with Tagv := madd s2.Tagv (metric, kv.1) kv.2 }

/-- Embedding of the per-point body of `Index`: register the series, update
the three cross-reference tables for every tag pair, then update the
last-two-points pair (a point is promoted only if its timestamp is strictly
greater than the one in the write slot `index mod 2`). -/
def indexPoint (s : Search) (dp : DataPoint) : Search :=
  let key := MetricTagSet.key ⟨dp.Metric, dp.Tags⟩
  let s1 := { s with MetricTags := insertA s.MetricTags key ⟨dp.Metric, dp.Tags⟩ }
  let s2 := dp.Tags.foldl (tagStep dp.Metric) s1
  let p := (lookupA s2.Last key).getD zeroPair
  let p' := if (p.get (p.index % 2)).Timestamp < dp.Timestamp then
      { p.set (p.index % 2) dp with index := p.index + 1 }
    else p
  { s2 with Last := insertA s2.Last key p' }

/-- Embedding of `Search.Index(mdp)`: set the publish guard and ingest every
point of the batch in order. -/
def Index (s : Search) (mdp : List DataPoint) : Search :=
  let s0 := if s.copy then s else { s with copy := true }
  mdp.foldl indexPoint s0

/-- The error conditions `GetLast` can report. -/
inductive GErr where
  | notFloat
  | needTwo
deriving DecidableEq

/-- Embedding of `Search.GetLast(metric, tags, diff)`.  Returns the `float64`
result (division by a zero time delta, a NaN in Go, is modelled by `Rat`
division's zero result) together with the error value.  Mirrors the source's
error overwriting: the insufficient-data error replaces a not-numeric
error. -/
def GetLast (s : Search) (metric tags : Str) (diff : Bool) : Rat × Option GErr :=
  match lookupA s.Last (metric ++ tags) with
  | none => (0, none)
  | some p =>
    let e := p.get ((p.index + 1) % 2)
    let v : Rat := (e.Value).getD 0
    let err1 : Option GErr := if (e.Value).isSome then none else some .notFloat
    if diff then
      let o := p.get (p.index % 2)
      let ov : Rat := (o.Value).getD 0
      let err2 : Option GErr := if (o.Value).isSome then err1 else some .notFloat
      let err3 : Option GErr :=
        if o.Timestamp = 0 ∨ e.Timestamp = 0 then some .needTwo else err2
      ((v - ov) / ((e.Timestamp - o.Timestamp : Int) : Rat), err3)
    else (v, err1)

/-- Embedding of `tagValuesByMetricTagKey`: sorted tag values from the
snapshot. -/
def tagValuesByMetricTagKey (s : Search) (metric tagk : Str) : List Str :=
  sortStrings ((lookupA s.read.Tagv (metric, tagk)).getD [])

/-- Embedding of `UniqueMetrics()`: a slice sized from the live `Tagk` table
but filled from the snapshot's keys, then sorted.  `none` models the
index-out-of-range panic when the snapshot holds more metrics than the live
table. -/
def UniqueMetrics (s : Search) : Option (List Str) :=
  let n := s.Tagk.length
  let keys := s.read.Tagk.map fun kv => kv.1
  if n < keys.length then none
  else some (sortStrings (keys ++ List.replicate (n - keys.length) []))

/-- An OpenTSDB query, restricted to the fields `Expand` touches. -/
structure Query where
  Metric : Str
  Tags : List (Str × Str)
deriving DecidableEq

/-- Errors surfaced by `Expand`. -/
inductive ExpErr where
  | reErr
  | noMatch (k v : Str)
deriving DecidableEq

/-- Result of a fallible Go call: either an error or a value. -/
inductive ERes (ε α : Type) where
  | error (e : ε)
  | ok (val : α)
deriving DecidableEq

/-- The per-alternative step of `Expand`: a lone `*` or a wildcard-free
alternative passes through; otherwise the matching concrete tag values are
appended. -/
def expandAlt (s : Search) (metric k : Str) (acc : List Str) (v : Str) :
    Option (List Str) :=
  if v = ['*'] ∨ ¬ '*' ∈ v then some (acc ++ [v])
  else
    match Match v (tagValuesByMetricTagKey s metric k) with
    | none => none
    | some ns => some (acc ++ ns)

/-- Expansion of one tag value: split on `|`, trim, expand each alternative,
fail if the combined result is empty, and rejoin with `|`. -/
def expandKey (s : Search) (metric k ov : Str) : ERes ExpErr Str :=
  let alts := (splitOnChar '|' ov).map trimSpace
  match alts.foldlM (expandAlt s metric k) [] with
  | none => .error .reErr
  | some nvs => if nvs = [] then .error (.noMatch k ov) else .ok (joinSep '|' nvs)

/-- Expansion of all tag values of a query, in order; the first failure
aborts. -/
def expandTags (s : Search) (metric : Str) :
    List (Str × Str) → ERes ExpErr (List (Str × Str))
  | [] => .ok []
  | (k, ov) :: rest =>
    match expandKey s metric k ov with
    | .error e => .error e
    | .ok nv =>
      match expandTags s metric rest with
      | .error e => .error e
      | .ok rest' => .ok ((k, nv) :: rest')

/-- Embedding of `Search.Expand(q)`: the query with every tag value
expanded, or the first error. -/
def Expand (s : Search) (q : Query) : ERes ExpErr Query :=
  match expandTags s q.Metric q.Tags with
  | .error e => .error e
  | .ok tags' => .ok { q with Tags := tags' }

/-- Claim-side definition: the combined expansion of all `|`-alternatives of
one tag value — literal alternatives stand for themselves, wildcard
alternatives for their Pattern Matcher matches; `none` is a pattern-compile
failure. -/
def combinedAlts (s : Search) (metric k ov : Str) : Option (List Str) :=
  ((splitOnChar '|' ov).map trimSpace).foldlM (expandAlt s metric k) []

/-! ### Silence engine (`package sched`)

An `expr.AlertKey` is a string of the form `name\x7bk=v,k2=v2\x7d`; the `expr`
package is an external collaborator, so its name accessor, `Group()` parser
and `ParseAlertKey` are modelled from the spec's collaborator contract. -/

/-- Modelled from the spec: the alert-name accessor of an `expr.AlertKey` —
the part before the tag braces. -/
def akName (s : Str) : Str := s.takeWhile fun c => c ≠ '{'

/-- Modelled from the spec: the `Group()` accessor of an `expr.AlertKey` —
the key-to-value mapping written between the braces. -/
def akGroup (s : Str) : List (Str × Str) :=
  match s.dropWhile (fun c => c ≠ '{') with
  | '{' :: rest =>
    let body := rest.takeWhile fun c => c ≠ '}'
    if body = [] then []
    else (splitOnChar ',' body).map fun part =>
      (part.takeWhile (fun c => c ≠ '='), (part.dropWhile fun c => c ≠ '=').drop 1)
  | _ => []

/-- Modelled from the spec: the external `expr.ParseAlertKey`, applied to a
string of the form `name\x7bk=v,...\x7d`; it fails on malformed input and otherwise
yields the alert key (a string). -/
def ParseAlertKey (inp : Str) : Option Str :=
  match inp.dropWhile (fun c => c ≠ '{') with
  | '{' :: rest =>
    if rest.getLast? = some '}' ∧ ¬ '{' ∈ rest then
      let body := rest.dropLast
      if body = [] ∨ (splitOnChar ',' body).all
          (fun part => part.takeWhile (fun c => c ≠ '=') ≠ [] ∧ '=' ∈ part) then
        some inp
      else none
    else none
  | _ => none

/-- Embedding of `Silence.Matches(alert)` with rule pattern `sAlert`: the
whole-key guard `s.Alert != "" && s.Alert != alert`, then the per-tag-key
pattern loop over the rule's group (a failed or erroring `Match` rejects). -/
def Matches (sAlert alert : Str) : Bool :=
  if sAlert ≠ [] ∧ sAlert ≠ alert then false
  else
    let tags := akGroup alert
    (akGroup sAlert).all fun kp =>
      match lookupA tags kp.1 with
      | none => false
      | some tagv => matchOne kp.2 tagv

/-- Claim-side definition of the silence matching semantics as the claim
states them: the rule's alert-name pattern is empty or equal to the
identity's name, and every tag key of the rule's pattern group is present in
the identity's group with a value accepted by the Pattern Matcher. -/
def matchesClaim (sAlert alert : Str) : Bool :=
  (akName sAlert = [] || akName sAlert = akName alert) &&
  ((akGroup sAlert).all fun kp =>
    match lookupA (akGroup alert) kp.1 with
    | none => false
    | some tagv => matchOne kp.2 tagv)

/-- A suppression rule (`type Silence`). -/
structure Sil where
  Start : Int
  End : Int
  Alert : Str
deriving DecidableEq

/-- Decimal digits of a natural number. -/
def natToStr (n : Nat) : Str := Nat.toDigits 10 n

/-- Decimal form of an integer. -/
def intToStr : Int → Str
  | .ofNat n => natToStr n
  | .negSucc n => '-' :: natToStr (n + 1)

/-- Embedding of `Silence.ID()`: a deterministic content string over
`(Start, End, Alert)`.  The source feeds `"start|end|alert"` through SHA-1;
the hash primitive is external, so the ID is modelled by the formatted
string itself (an injective stand-in). -/
def silID (si : Sil) : Str :=
  intToStr si.Start ++ '|' :: intToStr si.End ++ '|' :: si.Alert

/-- The Schedule state the silence engine owns or reads: alert statuses
(`IsActive()` as a boolean) and the rule map. -/
structure Schedule where
  status : List (Str × Bool)
  Silence : List (Str × Sil)
deriving DecidableEq

/-- The distinct errors `AddSilence` can return. -/
inductive AddErr where
  | bothStartEnd
  | startBeforeEnd
  | endInPast
  | alertOrTags
  | parseErr
deriving DecidableEq

/-- Embedding of `Schedule.AddSilence`.  `now` stands for the clock read by
`time.Since`; zero `time.Time` values are the integer 0.  Returns the
`(preview, error)` pair together with the resulting schedule state (`Save`
is fire-and-forget and keeps no modelled state). -/
def AddSilence (sc : Schedule) (now start e : Int) (alert tagList : Str)
    (confirm : Bool) (edit : Str) :
    (Option (List (Str × Bool)) × Option AddErr) × Schedule :=
  if start = 0 ∨ e = 0 then ((none, some .bothStartEnd), sc)
  else if e < start then ((none, some .startBeforeEnd), sc)
  else if 0 < now - e then ((none, some .endInPast), sc)
  else if alert = [] ∧ tagList = [] then ((none, some .alertOrTags), sc)
  else
    match ParseAlertKey (alert ++ '{' :: tagList ++ ['}']) with
    | none => ((none, some .parseErr), sc)
    | some ak =>
      let si : Sil := ⟨start, e, ak⟩
      if confirm then
        ((none, none),
         { sc with Silence := insertA (removeA sc.Silence edit) (silID si) si })
      else
        ((some (sc.status.filter fun kv => Matches si.Alert kv.1), none), sc)

/-- Embedding of `Schedule.ClearSilence(id)`. -/
def ClearSilence (sc : Schedule) (id : Str) : Schedule :=
  { sc with Silence := removeA sc.Silence id }

/-- The four live tables of a search state, bundled. -/
def liveTables (s : Search) : SearchTables :=
  ⟨s.Metric, s.Tagk, s.Tagv, s.MetricTags⟩

/-- Membership of an element in the set stored under a key of a map-of-sets
table. -/
def mcontains {K : Type} [DecidableEq K] (m : List (K × List Str)) (k : K)
    (x : Str) : Prop :=
  ∃ p, lookupA m k = some p ∧ x ∈ p

/-- The three cross-reference facts `Index` records for one tag pair of a
metric. -/
def indexedKV (s : Search) (metric : Str) (kv : Str × Str) : Prop :=
  mcontains s.Metric (kv.1, kv.2) metric ∧
  mcontains s.Tagk metric kv.1 ∧
  mcontains s.Tagv (metric, kv.1) kv.2

/-- All the table facts `Index` records for one data point: the series is
registered, and every tag pair is present in the three cross-reference
tables. -/
def indexed (s : Search) (dp : DataPoint) : Prop :=
  lookupA s.MetricTags (MetricTagSet.key ⟨dp.Metric, dp.Tags⟩) =
      some ⟨dp.Metric, dp.Tags⟩ ∧
    ∀ kv ∈ dp.Tags, indexedKV s dp.Metric kv

/-! ### Lemmas: association lists and map-of-sets tables -/

section AListLemmas

variable {K : Type} [DecidableEq K] {V : Type}

theorem lookupA_insertA_self (m : List (K × V)) (k : K) (v : V) :
    lookupA (insertA m k v) k = some v := by
  induction m with
  | nil => simp [insertA, lookupA]
  | cons kv rest ih =>
    by_cases h : kv.1 = k
    · simp [insertA, lookupA, h]
    · simp [insertA, lookupA, h, ih]

theorem lookupA_insertA_ne (m : List (K × V)) {k k' : K} (v : V) (h : k ≠ k') :
    lookupA (insertA m k' v) k = lookupA m k := by
  induction m with
  | nil => simp [insertA, lookupA, Ne.symm h]
  | cons kv rest ih =>
    by_cases hk : kv.1 = k'
    · simp [insertA, lookupA, hk, Ne.symm h]
    · simp only [insertA, hk, if_false, lookupA]
      by_cases hk2 : kv.1 = k <;> simp [hk2, ih]

theorem insertA_of_lookup {m : List (K × V)} {k : K} {v : V}
    (h : lookupA m k = some v) : insertA m k v = m := by
  induction m with
  | nil => simp [lookupA] at h
  | cons kv rest ih =>
    obtain ⟨a, b⟩ := kv
    by_cases hk : a = k
    · simp only [lookupA, hk, if_true, Option.some.injEq] at h
      simp [insertA, hk, h]
    · simp only [lookupA, hk, if_false] at h
      simp [insertA, hk, ih h]

theorem lookupA_append_left {m : List (K × V)} {k : K} {v : V}
    (h : lookupA m k = some v) (l : List (K × V)) :
    lookupA (m ++ l) k = some v := by
  induction m with
  | nil => simp [lookupA] at h
  | cons kv rest ih =>
    by_cases hk : kv.1 = k
    · simp only [lookupA, hk, if_true] at h
      simp [lookupA, hk, h]
    · simp only [lookupA, hk, if_false] at h
      simp [lookupA, hk, ih h]

theorem lookupA_append_none {m : List (K × V)} {k : K}
    (h : lookupA m k = none) (l : List (K × V)) :
    lookupA (m ++ l) k = lookupA l k := by
  induction m with
  | nil => simp
  | cons kv rest ih =>
    by_cases hk : kv.1 = k
    · simp [lookupA, hk] at h
    · simp only [lookupA, hk, if_false] at h
      simp [lookupA, hk, ih h]

end AListLemmas

theorem presAdd_self (l : List Str) (x : Str) : x ∈ presAdd l x := by
  by_cases h : x ∈ l <;> simp [presAdd, h]

theorem presAdd_of_mem {l : List Str} {x : Str} (h : x ∈ l) :
    presAdd l x = l := by
  simp [presAdd, h]

theorem mem_presAdd {l : List Str} {x y : Str} (h : x ∈ l) :
    x ∈ presAdd l y := by
  by_cases hy : y ∈ l <;> simp [presAdd, hy, h]

section MaddLemmas

variable {K : Type} [DecidableEq K]

theorem madd_contains (m : List (K × List Str)) (k : K) (x : Str) :
    mcontains (madd m k x) k x := by
  cases h : lookupA m k with
  | none =>
    refine ⟨[x], ?_, by simp⟩
    simp only [madd, h]
    rw [lookupA_append_none h]
    simp [lookupA]
  | some p =>
    refine ⟨presAdd p x, ?_, presAdd_self _ _⟩
    simp only [madd, h]
    exact lookupA_insertA_self _ _ _

theorem madd_preserves {m : List (K × List Str)} {k : K} {x : Str}
    (h : mcontains m k x) (k' : K) (x' : Str) :
    mcontains (madd m k' x') k x := by
  obtain ⟨p, hl, hm⟩ := h
  cases h' : lookupA m k' with
  | none =>
    refine ⟨p, ?_, hm⟩
    simp only [madd, h']
    exact lookupA_append_left hl _
  | some p' =>
    by_cases hk : k = k'
    · subst hk
      rw [hl] at h'
      cases h'
      refine ⟨presAdd p x', ?_, mem_presAdd hm⟩
      simp only [madd, hl]
      exact lookupA_insertA_self _ _ _
    · refine ⟨p, ?_, hm⟩
      simp only [madd, h']
      rw [lookupA_insertA_ne _ _ hk, hl]

theorem madd_of_contains {m : List (K × List Str)} {k : K} {x : Str}
    (h : mcontains m k x) : madd m k x = m := by
  obtain ⟨p, hl, hm⟩ := h
  simp only [madd, hl, presAdd_of_mem hm, insertA_of_lookup hl]

end MaddLemmas

/-! ### Lemmas: the `Index` state transformer -/

theorem foldl_pres {α β γ : Type _} (f : α → γ) (step : α → β → α)
    (hp : ∀ s x, f (step s x) = f s) :
    ∀ (l : List β) (s : α), f (l.foldl step s) = f s
  | [], _ => rfl
  | x :: xs, s => by
    rw [List.foldl_cons, foldl_pres f step hp xs (step s x), hp]

theorem foldl_fixed {α β : Type _} (step : α → β → α) :
    ∀ (l : List β) (s : α), (∀ x ∈ l, step s x = s) → l.foldl step s = s
  | [], _, _ => rfl
  | x :: xs, s, h => by
    rw [List.foldl_cons, h x (by simp)]
    exact foldl_fixed step xs s fun y hy => h y (by simp [hy])

theorem tagStep_Last (metric : Str) (s : Search) (kv : Str × Str) :
    (tagStep metric s kv).Last = s.Last := rfl

theorem tagStep_MetricTags (metric : Str) (s : Search) (kv : Str × Str) :
    (tagStep metric s kv).MetricTags = s.MetricTags := rfl

theorem indexPoint_Last (s : Search) (dp : DataPoint) :
    (indexPoint s dp).Last =
      (let key := MetricTagSet.key ⟨dp.Metric, dp.Tags⟩
       let p := (lookupA s.Last key).getD zeroPair
       let p' := if (p.get (p.index % 2)).Timestamp < dp.Timestamp then
           { p.set (p.index % 2) dp with index := p.index + 1 }
         else p
       insertA s.Last key p') := by
  simp only [indexPoint,
    foldl_pres Search.Last (tagStep dp.Metric) (tagStep_Last dp.Metric)]

theorem tagStep_fixed {s : Search} {metric : Str} {kv : Str × Str}
    (h : indexedKV s metric kv) : tagStep metric s kv = s := by
  obtain ⟨h1, h2, h3⟩ := h
  simp only [tagStep, madd_of_contains h1, madd_of_contains h2, madd_of_contains h3]

theorem tagStep_pres_kv {s : Search} {metric : Str} {kv : Str × Str}
    (y : Str × Str) (h : indexedKV s metric kv) :
    indexedKV (tagStep metric s y) metric kv := by
  obtain ⟨h1, h2, h3⟩ := h
  exact ⟨madd_preserves h1 _ _, madd_preserves h2 _ _, madd_preserves h3 _ _⟩

theorem tagStep_self_kv (metric : Str) (s : Search) (kv : Str × Str) :
    indexedKV (tagStep metric s kv) metric kv :=
  ⟨madd_contains _ _ _, madd_contains _ _ _, madd_contains _ _ _⟩

theorem foldl_pres_kv (metric : Str) :
    ∀ (l : List (Str × Str)) (s : Search) (kv : Str × Str),
      indexedKV s metric kv → indexedKV (l.foldl (tagStep metric) s) metric kv
  | [], _, _, h => h
  | y :: ys, s, kv, h => by
    rw [List.foldl_cons]
    exact foldl_pres_kv metric ys (tagStep metric s y) kv (tagStep_pres_kv y h)

theorem foldl_establishes (metric : Str) :
    ∀ (l : List (Str × Str)) (s : Search) (kv : Str × Str), kv ∈ l →
      indexedKV (l.foldl (tagStep metric) s) metric kv
  | y :: ys, s, kv, hm => by
    rw [List.foldl_cons]
    rcases List.mem_cons.1 hm with h | h
    · subst h
      exact foldl_pres_kv metric ys _ kv (tagStep_self_kv metric s kv)
    · exact foldl_establishes metric ys _ kv h

theorem indexPoint_indexed (s : Search) (dp : DataPoint) :
    indexed (indexPoint s dp) dp := by
  constructor
  · show lookupA (indexPoint s dp).MetricTags _ = _
    unfold indexPoint
    simp only [foldl_pres Search.MetricTags (tagStep dp.Metric)
      (tagStep_MetricTags dp.Metric)]
    exact lookupA_insertA_self _ _ _
  · intro kv hkv
    show indexedKV (indexPoint s dp) dp.Metric kv
    have h := foldl_establishes dp.Metric dp.Tags
      { s with MetricTags := (insertA s.MetricTags
          (MetricTagSet.key ⟨dp.Metric, dp.Tags⟩) ⟨dp.Metric, dp.Tags⟩) } kv hkv
    exact h

theorem indexPoint_fixed_tables {s : Search} {dp : DataPoint}
    (h : indexed s dp) : liveTables (indexPoint s dp) = liveTables s := by
  obtain ⟨hmts, hkv⟩ := h
  have h1 : ({ s with MetricTags := (insertA s.MetricTags
      (MetricTagSet.key ⟨dp.Metric, dp.Tags⟩) ⟨dp.Metric, dp.Tags⟩) } : Search) = s := by
    rw [insertA_of_lookup hmts]
  have hfold : dp.Tags.foldl (tagStep dp.Metric) s = s :=
    foldl_fixed _ _ _ fun kv hm => tagStep_fixed (hkv kv hm)
  simp only [indexPoint, h1, hfold]
  rfl

theorem Index_single (s : Search) (dp : DataPoint) :
    Index s [dp] = indexPoint (if s.copy then s else { s with copy := true }) dp := rfl

theorem indexPoint_copy (s : Search) (dp : DataPoint) :
    (indexPoint s dp).copy = s.copy := by
  simp only [indexPoint, foldl_pres Search.copy (tagStep dp.Metric) (fun _ _ => rfl)]

theorem Index_copy (s : Search) (dp : DataPoint) : (Index s [dp]).copy = true := by
  rw [Index_single, indexPoint_copy]
  cases hc : s.copy <;> simp [hc]

theorem Index_single_of_copy {s : Search} (hc : s.copy = true) (dp : DataPoint) :
    Index s [dp] = indexPoint s dp := by
  rw [Index_single, hc, if_pos rfl]

theorem indexPoint_Last_fresh {s : Search} {dp : DataPoint}
    (hl : lookupA s.Last (MetricTagSet.key ⟨dp.Metric, dp.Tags⟩) = none)
    (ht : 0 < dp.Timestamp) :
    (indexPoint s dp).Last =
      insertA s.Last (MetricTagSet.key ⟨dp.Metric, dp.Tags⟩)
        ⟨dp, zeroDataPoint, 1⟩ := by
  rw [indexPoint_Last]
  simp only [hl, Option.getD_none]
  rw [if_pos]
  · rfl
  · exact ht

theorem indexPoint_Last_accept {s : Search} {dp : DataPoint} {p : Pair}
    (hl : lookupA s.Last (MetricTagSet.key ⟨dp.Metric, dp.Tags⟩) = some p)
    (ht : (p.get (p.index % 2)).Timestamp < dp.Timestamp) :
    (indexPoint s dp).Last =
      insertA s.Last (MetricTagSet.key ⟨dp.Metric, dp.Tags⟩)
        { p.set (p.index % 2) dp with index := p.index + 1 } := by
  rw [indexPoint_Last]
  simp only [hl, Option.getD_some, if_pos ht]

theorem indexPoint_Last_reject {s : Search} {dp : DataPoint} {p : Pair}
    (hl : lookupA s.Last (MetricTagSet.key ⟨dp.Metric, dp.Tags⟩) = some p)
    (ht : ¬ (p.get (p.index % 2)).Timestamp < dp.Timestamp) :
    (indexPoint s dp).Last = s.Last := by
  rw [indexPoint_Last]
  simp only [hl, Option.getD_some, if_neg ht]
  exact insertA_of_lookup hl

theorem GetLast_congr {s s' : Search} (h : s.Last = s'.Last)
    (metric tags : Str) (diff : Bool) :
    GetLast s metric tags diff = GetLast s' metric tags diff := by
  simp only [GetLast, h]

/-! ### Lemmas: the Pattern Matcher on safe glob patterns -/

theorem escDots_cons (c : Char) (p : Str) :
    escDots (c :: p) = (if c = '.' then ['\\', '.'] else [c]) ++ escDots p := by
  by_cases h : c = '.' <;> simp [escDots, h]

theorem starExp_cons (c : Char) (p : Str) :
    starExp (c :: p) = (if c = '*' then ['.', '*'] else [c]) ++ starExp p := by
  by_cases h : c = '*' <;> simp [starExp, h]

theorem starExp_append (l1 l2 : Str) :
    starExp (l1 ++ l2) = starExp l1 ++ starExp l2 := by
  simp [starExp]

theorem trBody_cons (c : Char) (p : Str) :
    starExp (escDots (c :: p)) =
      (if c = '.' then ['\\', '.'] else if c = '*' then ['.', '*'] else [c]) ++
        starExp (escDots p) := by
  rcases eq_or_ne c '.' with rfl | h
  · simp [escDots_cons, starExp_append, starExp_cons]
  · rcases eq_or_ne c '*' with rfl | h2
    · simp [escDots_cons, starExp_append, starExp_cons]
    · simp [escDots_cons, starExp_append, starExp_cons, h, h2]

theorem trBody_head (p : Str) (hp : safePat p = true) :
    noPostfixHead (starExp (escDots p)) := by
  cases p with
  | nil => left; rfl
  | cons c p =>
    have hc : safeChar c = true := by
      simp only [safePat, List.all_cons, Bool.and_eq_true] at hp
      exact hp.1
    right
    rw [trBody_cons]
    rcases eq_or_ne c '.' with rfl | h
    · exact ⟨'\\', '.' :: starExp (escDots p), by simp, by decide, by decide, by decide⟩
    · rcases eq_or_ne c '*' with rfl | h2
      · exact ⟨'.', '*' :: starExp (escDots p), by simp, by decide, by decide, by decide⟩
      · have hm : isMeta c = false := by
          cases hmeta : isMeta c with
          | false => rfl
          | true =>
            exfalso
            simp only [safeChar, hmeta] at hc
            simp [h, h2] at hc
        refine ⟨c, starExp (escDots p), by simp [h, h2], ?_, ?_, ?_⟩ <;>
          (intro hh; subst hh; simp [isMeta] at hm)

theorem parseRxF_nil (f : Nat) : parseRxF f [] = some [] := by
  cases f <;> rfl

theorem parseRxF_escdot (f : Nat) {t : Str} (h : noPostfixHead t) :
    parseRxF (f + 1) ('\\' :: '.' :: t) =
      (parseRxF f t).map fun ps => ⟨.chr '.', .once⟩ :: ps := by
  rcases h with rfl | ⟨d, r, rfl, h1, h2, h3⟩
  · simp [parseRxF, parseRxF_nil]
  · simp only [parseRxF]
    split <;> simp_all

theorem parseRxF_star (f : Nat) (t : Str) :
    parseRxF (f + 1) ('.' :: '*' :: t) =
      (parseRxF f t).map fun ps => ⟨.dot, .star⟩ :: ps := by
  simp [parseRxF, isMeta]

theorem parseRxF_lit (f : Nat) {c : Char} (hm : isMeta c = false) {t : Str}
    (h : noPostfixHead t) :
    parseRxF (f + 1) (c :: t) =
      (parseRxF f t).map fun ps => ⟨.chr c, .once⟩ :: ps := by
  have hb : c ≠ '\\' := by intro hh; subst hh; simp [isMeta] at hm
  have hd : c ≠ '.' := by intro hh; subst hh; simp [isMeta] at hm
  rcases h with rfl | ⟨d, r, rfl, h1, h2, h3⟩
  · simp only [parseRxF, if_neg hb]
    rw [if_neg (by simp [hm])]
    simp [hd, parseRxF_nil]
  · simp only [parseRxF, if_neg hb]
    rw [if_neg (by simp [hm])]
    simp only [hd, if_false]
    split <;> simp_all

theorem parseRxF_trBody : ∀ (f : Nat) (p : Str), safePat p = true → p.length ≤ f →
    parseRxF f (starExp (escDots p)) = some (globPieces p) := by
  intro f
  induction f with
  | zero =>
    intro p hp hl
    have : p = [] := List.length_eq_zero.1 (Nat.le_zero.1 hl)
    subst this
    rfl
  | succ f ih =>
    intro p hp hl
    cases p with
    | nil => rfl
    | cons c p =>
      have hc : safeChar c = true ∧ safePat p = true := by
        simpa [safePat] using hp
      have hlen : p.length ≤ f := by
        simpa using Nat.le_of_succ_le_succ (by simpa using hl)
      rw [trBody_cons]
      rcases eq_or_ne c '.' with rfl | hdot
      · rw [if_pos rfl]
        show parseRxF (f + 1) ('\\' :: '.' :: starExp (escDots p)) = _
        rw [parseRxF_escdot f (trBody_head p hc.2), ih p hc.2 hlen]
        simp [globPieces]
      · rcases eq_or_ne c '*' with rfl | hstar
        · rw [if_neg hdot, if_pos rfl]
          show parseRxF (f + 1) ('.' :: '*' :: starExp (escDots p)) = _
          rw [parseRxF_star, ih p hc.2 hlen]
          simp [globPieces]
        · have hm : isMeta c = false := by
            cases hmeta : isMeta c with
            | false => rfl
            | true =>
              exfalso
              have h4 := hc.1
              simp only [safeChar, hmeta] at h4
              simp [hdot, hstar] at h4
          rw [if_neg hdot, if_neg hstar]
          show parseRxF (f + 1) (c :: starExp (escDots p)) = _
          rw [parseRxF_lit f hm (trBody_head p hc.2), ih p hc.2 hlen]
          simp [globPieces, hstar]

theorem trBody_length (p : Str) : p.length ≤ (starExp (escDots p)).length := by
  induction p with
  | nil => simp [escDots, starExp]
  | cons c p ih =>
    rw [trBody_cons]
    rcases eq_or_ne c '.' with rfl | h
    · rw [if_pos rfl]
      simp only [List.length_append, List.length_cons]
      omega
    · rcases eq_or_ne c '*' with rfl | h2
      · rw [if_neg h, if_pos rfl]
        simp only [List.length_append, List.length_cons]
        omega
      · rw [if_neg h, if_neg h2]
        simp only [List.length_append, List.length_cons]
        omega

theorem reCompile_translate (p : Str) (hp : safePat p = true) :
    reCompile (translatePat p) = some (globPieces p) := by
  show reCompile ('^' :: (starExp (escDots p) ++ ['$'])) = _
  simp only [reCompile, List.getLast?_concat, List.dropLast_concat, if_pos rfl]
  exact parseRxF_trBody _ p hp (trBody_length p)

theorem starRun_dot (k : Str → Bool) : ∀ s, starRun .dot k s = globStar k s
  | [] => rfl
  | c :: cs => by
    simp [starRun, globStar, atomMatch, starRun_dot k cs]

theorem globStar_congr {k1 k2 : Str → Bool} (h : ∀ t, k1 t = k2 t) :
    ∀ s, globStar k1 s = globStar k2 s
  | [] => by simp [globStar, h]
  | c :: cs => by simp [globStar, h, globStar_congr h cs]

theorem rxMatch_globPieces : ∀ (p : Str) (s : Str),
    rxMatch (globPieces p) s = globSpec p s
  | [], s => rfl
  | c :: p, s => by
    rcases eq_or_ne c '*' with rfl | h
    · show rxMatch ((if ('*' : Char) = '*' then (⟨.dot, .star⟩ : RPiece)
          else ⟨.chr '*', .once⟩) :: globPieces p) s = _
      rw [if_pos rfl]
      rw [show rxMatch (⟨.dot, .star⟩ :: globPieces p) s =
            starRun .dot (rxMatch (globPieces p)) s from rfl]
      rw [starRun_dot]
      show _ = if ('*' : Char) = '*' then globStar (globSpec p) s else _
      rw [if_pos rfl]
      exact globStar_congr (fun t => rxMatch_globPieces p t) s
    · cases s with
      | nil => simp [globPieces, rxMatch, globSpec, h]
      | cons d ds =>
        simp [globPieces, rxMatch, globSpec, h, atomMatch,
          rxMatch_globPieces p ds]

/-! ### Lemmas: injectivity of the composite series key on delimiter-free
names -/

theorem eq_of_append_sep (sep : Char) :
    ∀ {a1 a2 b1 b2 : Str}, sep ∉ a1 → sep ∉ a2 →
      a1 ++ sep :: b1 = a2 ++ sep :: b2 → a1 = a2 ∧ b1 = b2 := by
  intro a1
  induction a1 with
  | nil =>
    intro a2 b1 b2 _ h2 he
    cases a2 with
    | nil => simpa using he
    | cons c a2 =>
      simp only [List.nil_append, List.cons_append, List.cons.injEq] at he
      exact absurd (he.1 ▸ List.mem_cons_self c a2) h2
  | cons c a1 ih =>
    intro a2 b1 b2 h1 h2 he
    cases a2 with
    | nil =>
      simp only [List.cons_append, List.nil_append, List.cons.injEq] at he
      exact absurd (he.1.symm ▸ List.mem_cons_self c a1) h1
    | cons d a2 =>
      simp only [List.cons_append, List.cons.injEq] at he
      have hrec := ih (fun hm => h1 (List.mem_cons_of_mem c hm))
        (fun hm => h2 (List.mem_cons_of_mem d hm)) he.2
      exact ⟨by rw [he.1, hrec.1], hrec.2⟩

theorem joinSep_ne_nil {sep : Char} {x : Str} (xs : List Str) (hx : x ≠ []) :
    joinSep sep (x :: xs) ≠ [] := by
  cases xs with
  | nil => simpa [joinSep] using hx
  | cons y ys => simp [joinSep]

theorem joinSep_inj (sep : Char) :
    ∀ (l1 l2 : List Str), (∀ x ∈ l1, sep ∉ x ∧ x ≠ []) →
      (∀ x ∈ l2, sep ∉ x ∧ x ≠ []) →
      joinSep sep l1 = joinSep sep l2 → l1 = l2 := by
  intro l1
  induction l1 with
  | nil =>
    intro l2 _ h2 he
    cases l2 with
    | nil => rfl
    | cons y ys =>
      exact absurd he.symm (joinSep_ne_nil ys (h2 y (by simp)).2)
  | cons x xs ih =>
    intro l2 h1 h2 he
    cases l2 with
    | nil => exact absurd he (joinSep_ne_nil xs (h1 x (by simp)).2)
    | cons y ys =>
      cases xs with
      | nil =>
        cases ys with
        | nil => simpa [joinSep] using he
        | cons z zs =>
          exfalso
          have hx : joinSep sep [x] = x := rfl
          rw [hx] at he
          have : sep ∈ x := by
            rw [he, show joinSep sep (y :: z :: zs) =
              y ++ sep :: joinSep sep (z :: zs) from rfl]
            exact List.mem_append_right y (List.mem_cons_self sep _)
          exact (h1 x (by simp)).1 this
      | cons x2 xs2 =>
        cases ys with
        | nil =>
          exfalso
          have hy : joinSep sep [y] = y := rfl
          rw [hy] at he
          have : sep ∈ y := by
            rw [← he, show joinSep sep (x :: x2 :: xs2) =
              x ++ sep :: joinSep sep (x2 :: xs2) from rfl]
            exact List.mem_append_right x (List.mem_cons_self sep _)
          exact (h2 y (by simp)).1 this
        | cons y2 ys2 =>
          rw [show joinSep sep (x :: x2 :: xs2) =
                x ++ sep :: joinSep sep (x2 :: xs2) from rfl,
              show joinSep sep (y :: y2 :: ys2) =
                y ++ sep :: joinSep sep (y2 :: ys2) from rfl] at he
          have hsplit := eq_of_append_sep sep (h1 x (by simp)).1
            (h2 y (by simp)).1 he
          have hrest := ih (y2 :: ys2)
            (fun z hz => h1 z (List.mem_cons_of_mem x hz))
            (fun z hz => h2 z (List.mem_cons_of_mem y hz)) hsplit.2
          rw [hsplit.1, hrest]

theorem tagParts_inj :
    ∀ (l1 l2 : TagSet), (∀ kv ∈ l1, '=' ∉ kv.1) → (∀ kv ∈ l2, '=' ∉ kv.1) →
      l1.map (fun kv => kv.1 ++ '=' :: kv.2) =
        l2.map (fun kv => kv.1 ++ '=' :: kv.2) → l1 = l2 := by
  intro l1
  induction l1 with
  | nil =>
    intro l2 _ _ he
    cases l2 with
    | nil => rfl
    | cons y ys => simp at he
  | cons x xs ih =>
    intro l2 h1 h2 he
    cases l2 with
    | nil => simp at he
    | cons y ys =>
      simp only [List.map_cons, List.cons.injEq] at he
      have hx := eq_of_append_sep '=' (h1 x (by simp)) (h2 y (by simp)) he.1
      have hrest := ih ys (fun z hz => h1 z (List.mem_cons_of_mem x hz))
        (fun z hz => h2 z (List.mem_cons_of_mem y hz)) he.2
      rw [hrest, show x = y from Prod.ext hx.1 hx.2]

theorem sortTags_eq_of_sorted :
    ∀ {t : TagSet}, List.Chain' (fun a b => strLe a.1 b.1 = true) t →
      sortTags t = t := by
  intro t
  induction t with
  | nil => intro _; rfl
  | cons kv rest ih =>
    intro h
    have htail := h.tail
    show insertTag kv (sortTags rest) = kv :: rest
    rw [ih htail]
    cases rest with
    | nil => rfl
    | cons x xs =>
      have hrel : strLe kv.1 x.1 = true := (List.chain'_cons.1 h).1
      simp [insertTag, hrel]

/-! ### Lemmas: `Expand` and the copy flag -/

theorem Index_copy_true (s : Search) (mdp : List DataPoint) :
    (Index s mdp).copy = true := by
  unfold Index
  rw [foldl_pres Search.copy indexPoint indexPoint_copy]
  cases hc : s.copy <;> simp [hc]

theorem Index_of_copy {s : Search} (hc : s.copy = true) (mdp : List DataPoint) :
    Index s mdp = mdp.foldl indexPoint s := by
  unfold Index
  rw [hc]
  simp

theorem expandKey_eq (s : Search) (metric k ov : Str) :
    expandKey s metric k ov =
      match combinedAlts s metric k ov with
      | none => .error .reErr
      | some [] => .error (.noMatch k ov)
      | some (n :: nvs) => .ok (joinSep '|' (n :: nvs)) := by
  unfold expandKey combinedAlts
  cases h : ((splitOnChar '|' ov).map trimSpace).foldlM (expandAlt s metric k) [] with
  | none => simp [h]
  | some nvs =>
    cases nvs with
    | nil => simp [h]
    | cons n ns => simp [h]

theorem expandTags_ok {s : Search} {metric : Str} :
    ∀ {l l'}, expandTags s metric l = .ok l' →
      l' = l.map fun kv =>
        (kv.1, joinSep '|' ((combinedAlts s metric kv.1 kv.2).getD [])) := by
  intro l
  induction l with
  | nil =>
    intro l' h
    simp only [expandTags] at h
    cases h
    rfl
  | cons kv rest ih =>
    intro l' h
    obtain ⟨k, ov⟩ := kv
    simp only [expandTags] at h
    rw [expandKey_eq] at h
    cases hc : combinedAlts s metric k ov with
    | none => rw [hc] at h; cases h
    | some nvs =>
      rw [hc] at h
      cases nvs with
      | nil => cases h
      | cons n ns =>
        simp only at h
        cases hr : expandTags s metric rest with
        | error e => rw [hr] at h; cases h
        | ok rest' =>
          rw [hr] at h
          cases h
          rw [List.map_cons, ← ih hr]
          simp [hc]

theorem expandTags_error_iff {s : Search} {metric : Str} :
    ∀ l, (∃ e, expandTags s metric l = .error e) ↔
      ∃ kv ∈ l, combinedAlts s metric kv.1 kv.2 = none ∨
        combinedAlts s metric kv.1 kv.2 = some [] := by
  intro l
  induction l with
  | nil => simp [expandTags]
  | cons kv rest ih =>
    obtain ⟨k, ov⟩ := kv
    constructor
    · rintro ⟨e, he⟩
      simp only [expandTags] at he
      rw [expandKey_eq] at he
      cases hc : combinedAlts s metric k ov with
      | none => exact ⟨(k, ov), by simp, Or.inl hc⟩
      | some nvs =>
        rw [hc] at he
        cases nvs with
        | nil => exact ⟨(k, ov), by simp, Or.inr hc⟩
        | cons n ns =>
          simp only at he
          cases hr : expandTags s metric rest with
          | error e2 =>
            obtain ⟨kv2, hkv2, hbad⟩ := ih.1 ⟨e2, hr⟩
            exact ⟨kv2, List.mem_cons_of_mem _ hkv2, hbad⟩
          | ok rest' => rw [hr] at he; cases he
    · rintro ⟨kv2, hkv2, hbad⟩
      rcases List.mem_cons.1 hkv2 with rfl | hm
      · simp only [expandTags]
        rw [expandKey_eq]
        rcases hbad with hb | hb
        · rw [hb]; exact ⟨.reErr, rfl⟩
        · rw [hb]; exact ⟨.noMatch k ov, rfl⟩
      · simp only [expandTags]
        rw [expandKey_eq]
        cases hc : combinedAlts s metric k ov with
        | none => exact ⟨.reErr, rfl⟩
        | some nvs =>
          cases nvs with
          | nil => exact ⟨.noMatch k ov, rfl⟩
          | cons n ns =>
            simp only
            obtain ⟨e, he⟩ := ih.2 ⟨kv2, hm, hbad⟩
            rw [he]
            exact ⟨e, rfl⟩

theorem GetLast_diff_of_lookup {s : Search} {metric tags : Str} {p : Pair}
    (h : lookupA s.Last (metric ++ tags) = some p)
    (hts : ¬((p.get (p.index % 2)).Timestamp = 0 ∨
      (p.get ((p.index + 1) % 2)).Timestamp = 0))
    {ve vo : Rat} (he : (p.get ((p.index + 1) % 2)).Value = some ve)
    (ho : (p.get (p.index % 2)).Value = some vo) :
    GetLast s metric tags true =
      ((ve - vo) / (((p.get ((p.index + 1) % 2)).Timestamp -
        (p.get (p.index % 2)).Timestamp : Int) : Rat), none) := by
  unfold GetLast
  rw [h]
  simp [he, ho, hts]

theorem three_point_last (m : Str) (tg : TagSet) (t1 t2 t3 : Int)
    (w1 w2 w3 : Option Rat) (h1 : 0 < t1) (h2 : 0 < t2) (h13 : t1 < t3) :
    (Index NewSearch
        [⟨m, t1, w1, tg⟩, ⟨m, t2, w2, tg⟩, ⟨m, t3, w3, tg⟩]).Last =
      [(MetricTagSet.key ⟨m, tg⟩, ⟨⟨m, t3, w3, tg⟩, ⟨m, t2, w2, tg⟩, 3⟩)] := by
  have e0 : Index NewSearch [⟨m, t1, w1, tg⟩, ⟨m, t2, w2, tg⟩, ⟨m, t3, w3, tg⟩] =
      indexPoint (indexPoint (indexPoint { NewSearch with copy := true }
        ⟨m, t1, w1, tg⟩) ⟨m, t2, w2, tg⟩) ⟨m, t3, w3, tg⟩ := rfl
  rw [e0]
  have hA : (indexPoint { NewSearch with copy := true } ⟨m, t1, w1, tg⟩).Last =
      [(MetricTagSet.key ⟨m, tg⟩, ⟨⟨m, t1, w1, tg⟩, zeroDataPoint, 1⟩)] :=
    indexPoint_Last_fresh rfl h1
  have hlA : lookupA (indexPoint { NewSearch with copy := true }
      ⟨m, t1, w1, tg⟩).Last (MetricTagSet.key ⟨m, tg⟩) =
      some ⟨⟨m, t1, w1, tg⟩, zeroDataPoint, 1⟩ := by
    rw [hA]
    simp [lookupA]
  have hB : (indexPoint (indexPoint { NewSearch with copy := true }
        ⟨m, t1, w1, tg⟩) ⟨m, t2, w2, tg⟩).Last =
      [(MetricTagSet.key ⟨m, tg⟩, ⟨⟨m, t1, w1, tg⟩, ⟨m, t2, w2, tg⟩, 2⟩)] := by
    rw [indexPoint_Last_accept hlA (by simp [Pair.get, zeroDataPoint]; omega)]
    rw [hA]
    simp [insertA, Pair.set]
  have hlB : lookupA (indexPoint (indexPoint { NewSearch with copy := true }
        ⟨m, t1, w1, tg⟩) ⟨m, t2, w2, tg⟩).Last (MetricTagSet.key ⟨m, tg⟩) =
      some ⟨⟨m, t1, w1, tg⟩, ⟨m, t2, w2, tg⟩, 2⟩ := by
    rw [hB]
    simp [lookupA]
  rw [indexPoint_Last_accept hlB (by simp [Pair.get]; omega)]
  rw [hB]
  simp [insertA, Pair.set]

/-! ### Claim theorems -/

/-- C1: the claim states that `Matches` succeeds iff the rule's alert-name
pattern is empty or equal to the identity's name and every pattern tag key is
matched by the identity.  The code instead compares the rule's whole alert
key (name and tag pattern together) against the identity's whole key, so a
rule with a wildcard tag pattern never matches a differing identity: for the
rule key `a\x7bhost=web*\x7d` and the identity `a\x7bhost=web-01\x7d` the names agree
and `web-01` satisfies `web*`, yet `Matches` returns false. -/
theorem c1_matches_full_key_shortcircuit :
    Matches ("a{host=web*}".toList) ("a{host=web-01}".toList) = false ∧
    matchesClaim ("a{host=web*}".toList) ("a{host=web-01}".toList) = true := by
  constructor <;> decide

/-- C4: `UniqueMetrics` sizes its slice from the live `Tagk` table but fills
it from the snapshot, so after one ingestion and before any snapshot publish
the snapshot holds no metrics and the result is a single empty-string
placeholder entry instead of the snapshot's (empty) set of metric names. -/
theorem c4_uniquemetrics_placeholder :
    (Index NewSearch [⟨"cpu".toList, 1, some 1, [("host".toList, "a".toList)]⟩]).read.Tagk
        = [] ∧
    UniqueMetrics
        (Index NewSearch [⟨"cpu".toList, 1, some 1, [("host".toList, "a".toList)]⟩]) =
      some [[]] := by
  constructor <;> decide

/-- C10: for a series with no last-pair entry, `GetLast` returns value 0 and
no error, for either value of `diff`. -/
theorem c10_getlast_unknown_series (s : Search) (metric tags : Str) (diff : Bool)
    (h : lookupA s.Last (metric ++ tags) = none) :
    GetLast s metric tags diff = (0, none) := by
  unfold GetLast
  rw [h]

/-- Witness for C10 on the fresh index. -/
theorem c10_witness :
    lookupA NewSearch.Last ("m".toList ++ "{h=x}".toList) = none ∧
    GetLast NewSearch ("m".toList) ("{h=x}".toList) false = (0, none) ∧
    GetLast NewSearch ("m".toList) ("{h=x}".toList) true = (0, none) :=
  ⟨rfl, c10_getlast_unknown_series _ _ _ false rfl,
    c10_getlast_unknown_series _ _ _ true rfl⟩

/-- C9 counterexample: re-ingesting the very same data point IS promoted into
the last-pair cache (the acceptance test compares against the write slot,
which holds the older point), so the `Last` map changes on the second
ingestion. -/
theorem c9_counterexample :
    (Index (Index NewSearch [⟨"m".toList, 1, some 5, [("h".toList, "x".toList)]⟩])
        [⟨"m".toList, 1, some 5, [("h".toList, "x".toList)]⟩]).Last ≠
      (Index NewSearch [⟨"m".toList, 1, some 5, [("h".toList, "x".toList)]⟩]).Last := by
  decide

/-- C9 amended: ingesting the same data point a second time leaves the
metric-tag-pair table, the metric-to-tag-keys table, the tag-values table and
the series registry unchanged; only the last-pair cache may change. -/
theorem c9_amended (s : Search) (dp : DataPoint) :
    liveTables (Index (Index s [dp]) [dp]) = liveTables (Index s [dp]) := by
  have h1 : indexed (Index s [dp]) dp := by
    rw [Index_single]
    exact indexPoint_indexed _ dp
  rw [Index_single_of_copy (Index_copy_true s [dp])]
  exact indexPoint_fixed_tables h1

/-- C7 counterexample: the pattern `a+` is not treated as the literal
two-character string the claim prescribes — the translated regex keeps `+`
as a repetition operator, so `Match` accepts `aa` although the claim's glob
interpretation rejects it. -/
theorem c7_counterexample :
    Match ("a+".toList) [("aa".toList)] = some [("aa".toList)] ∧
    [("aa".toList)].filter (fun v => globSpec ("a+".toList) v) = [] := by
  constructor <;> decide

/-- C7 amended: for every pattern built only from `.`, `*` and characters
with no regex meaning, `Match` returns exactly the candidates, in order,
whose whole string matches the pattern with `.` literal and `*` meaning zero
or more of any character, anchored at both ends. -/
theorem c7_amended (p : Str) (hp : safePat p = true) (vs : List Str) :
    Match p vs = some (vs.filter fun v => globSpec p v) := by
  unfold Match
  rw [reCompile_translate p hp]
  show some (vs.filter fun v => rxMatch (globPieces p) v) = _
  congr 1
  exact List.filter_congr fun v _ => rxMatch_globPieces p v

/-- Witness for C7 amended on the spec's own examples. -/
theorem c7_witness :
    safePat ("web*".toList) = true ∧
    Match ("web*".toList) [("web-01".toList), ("web".toList), ("xweb-01".toList)] =
      some ([("web-01".toList), ("web".toList), ("xweb-01".toList)].filter
        fun v => globSpec ("web*".toList) v) :=
  ⟨by decide, c7_amended _ (by decide) _⟩

/-- C8 counterexample: the composite key concatenates raw strings, so a tag
value containing `,` and `=` collides with a two-tag series: metric `a` with
tags `x=1, y=2` and metric `a` with the single tag `x=1,y=2` produce the same
key although the tag sets differ. -/
theorem c8_counterexample :
    MetricTagSet.key
        ⟨"a".toList, [("x".toList, "1".toList), ("y".toList, "2".toList)]⟩ =
      MetricTagSet.key ⟨"a".toList, [("x".toList, "1,y=2".toList)]⟩ ∧
    (⟨"a".toList, [("x".toList, "1".toList), ("y".toList, "2".toList)]⟩ : MetricTagSet) ≠
      ⟨"a".toList, [("x".toList, "1,y=2".toList)]⟩ := by
  constructor <;> decide

/-- C8 amended: on series whose metric contains no opening brace, whose tag
keys contain no `=` and no `,`, whose tag values contain no `,`, and whose
tag lists are in canonical key order, the composite key is injective: keys
are equal iff metric and tag list are equal. -/
theorem c8_amended (m1 m2 : MetricTagSet)
    (hb1 : '{' ∉ m1.Metric) (hb2 : '{' ∉ m2.Metric)
    (hk1 : ∀ kv ∈ m1.Tags, '=' ∉ kv.1 ∧ ',' ∉ kv.1 ∧ ',' ∉ kv.2)
    (hk2 : ∀ kv ∈ m2.Tags, '=' ∉ kv.1 ∧ ',' ∉ kv.1 ∧ ',' ∉ kv.2)
    (hs1 : List.Chain' (fun a b => strLe a.1 b.1 = true) m1.Tags)
    (hs2 : List.Chain' (fun a b => strLe a.1 b.1 = true) m2.Tags) :
    m1.key = m2.key ↔ m1 = m2 := by
  constructor
  · intro he
    unfold MetricTagSet.key tagsString at he
    rw [sortTags_eq_of_sorted hs1, sortTags_eq_of_sorted hs2] at he
    have hsplit := eq_of_append_sep '{' hb1 hb2 he
    have hbody : joinSep ',' (m1.Tags.map fun kv => kv.1 ++ '=' :: kv.2) =
        joinSep ',' (m2.Tags.map fun kv => kv.1 ++ '=' :: kv.2) :=
      List.append_cancel_right hsplit.2
    have hparts := joinSep_inj ',' _ _
      (by
        intro x hx
        obtain ⟨kv, hkv, rfl⟩ := List.mem_map.1 hx
        refine ⟨?_, by simp⟩
        intro hmem
        rcases List.mem_append.1 hmem with hm | hm
        · exact (hk1 kv hkv).2.1 hm
        · rcases List.mem_cons.1 hm with hh | hh
          · cases hh
          · exact (hk1 kv hkv).2.2 hh)
      (by
        intro x hx
        obtain ⟨kv, hkv, rfl⟩ := List.mem_map.1 hx
        refine ⟨?_, by simp⟩
        intro hmem
        rcases List.mem_append.1 hmem with hm | hm
        · exact (hk2 kv hkv).2.1 hm
        · rcases List.mem_cons.1 hm with hh | hh
          · cases hh
          · exact (hk2 kv hkv).2.2 hh)
      hbody
    have htags := tagParts_inj _ _ (fun kv hkv => (hk1 kv hkv).1)
      (fun kv hkv => (hk2 kv hkv).1) hparts
    cases m1
    cases m2
    simp only at hsplit htags
    rw [hsplit.1, htags]
  · rintro rfl
    rfl

/-- Witness for C8 amended on a concrete well-formed pair of series. -/
theorem c8_witness :
    (MetricTagSet.key ⟨"cpu".toList, [("host".toList, "web-01".toList)]⟩ =
        MetricTagSet.key ⟨"cpu".toList, [("host".toList, "web-01".toList)]⟩ ↔
      (⟨"cpu".toList, [("host".toList, "web-01".toList)]⟩ : MetricTagSet) =
        ⟨"cpu".toList, [("host".toList, "web-01".toList)]⟩) :=
  c8_amended _ _ (by decide) (by decide) (by decide) (by decide)
    (by simp) (by simp)

/-- C3 counterexample: with an empty index, the tag value `a|x*` has a
wildcard alternative `x*` that expands to zero concrete values, yet `Expand`
succeeds, keeping the literal alternative `a` — no error is raised for the
query. -/
theorem c3_counterexample :
    Match ("x*".toList)
        (tagValuesByMetricTagKey NewSearch ("m".toList) ("h".toList)) = some [] ∧
    Expand NewSearch ⟨"m".toList, [("h".toList, "a|x*".toList)]⟩ =
      .ok ⟨"m".toList, [("h".toList, "a".toList)]⟩ := by
  constructor <;> decide

/-- C3 amended: `Expand` fails exactly when, for some tag key, the combined
expansion of all its `|`-alternatives is empty or a wildcard alternative
fails to compile; on success every tag value is the `|`-join of its combined
expansion and the metric is unchanged. -/
theorem c3_amended (s : Search) (q : Query) :
    (∀ q', Expand s q = .ok q' →
      q'.Metric = q.Metric ∧
      q'.Tags = q.Tags.map fun kv =>
        (kv.1, joinSep '|' ((combinedAlts s q.Metric kv.1 kv.2).getD []))) ∧
    ((∃ e, Expand s q = ERes.error e) ↔
      ∃ kv ∈ q.Tags, combinedAlts s q.Metric kv.1 kv.2 = none ∨
        combinedAlts s q.Metric kv.1 kv.2 = some []) := by
  constructor
  · intro q' h
    unfold Expand at h
    cases ht : expandTags s q.Metric q.Tags with
    | error e => rw [ht] at h; cases h
    | ok tags' =>
      rw [ht] at h
      cases h
      exact ⟨rfl, expandTags_ok ht⟩
  · constructor
    · rintro ⟨e, he⟩
      unfold Expand at he
      cases ht : expandTags s q.Metric q.Tags with
      | error e2 => exact (expandTags_error_iff _).1 ⟨e2, ht⟩
      | ok tags' => rw [ht] at he; cases he
    · intro hbad
      obtain ⟨e, he⟩ := (expandTags_error_iff _).2 hbad
      refine ⟨e, ?_⟩
      unfold Expand
      rw [he]

/-- Witness for C3 amended: the success shape on a concrete query. -/
theorem c3_witness :
    (⟨"m".toList, [("h".toList, "a".toList)]⟩ : Query).Tags =
      [("h".toList, "a|x*".toList)].map fun kv =>
        (kv.1, joinSep '|'
          ((combinedAlts NewSearch ("m".toList) kv.1 kv.2).getD [])) :=
  ((c3_amended NewSearch ⟨"m".toList, [("h".toList, "a|x*".toList)]⟩).1
    ⟨"m".toList, [("h".toList, "a".toList)]⟩ (by decide)).2

/-- C5 counterexample: a series with only one recorded point (the other slot
is still the zero placeholder) queried with `diff=false` returns the stored
value with no error, although the claim requires an insufficient-data
failure for both values of `diff`. -/
theorem c5_counterexample :
    GetLast (Index NewSearch [⟨"m".toList, 1, some 5, [("h".toList, "x".toList)]⟩])
      ("m".toList) (tagsString [("h".toList, "x".toList)]) false = (5, none) := by
  decide

/-- C5 amended: with `diff=false`, `GetLast` fails with the not-numeric
condition exactly when the newer stored value is not a number (the older
slot and the zero-placeholder test are not consulted); with `diff=true` the
insufficient-data condition fires exactly when either stored timestamp is
still zero, taking precedence, and otherwise the not-numeric condition fires
exactly when either stored value is not a number. -/
theorem c5_amended (s : Search) (metric tags : Str) (p : Pair)
    (h : lookupA s.Last (metric ++ tags) = some p) :
    (GetLast s metric tags false).2 =
      (if (p.get ((p.index + 1) % 2)).Value.isSome then none
       else some GErr.notFloat) ∧
    (GetLast s metric tags true).2 =
      (if (p.get (p.index % 2)).Timestamp = 0 ∨
          (p.get ((p.index + 1) % 2)).Timestamp = 0
       then some GErr.needTwo
       else if (p.get ((p.index + 1) % 2)).Value.isSome ∧
          (p.get (p.index % 2)).Value.isSome
       then none
       else some GErr.notFloat) := by
  constructor
  · unfold GetLast
    rw [h]
    by_cases he : (p.get ((p.index + 1) % 2)).Value.isSome <;> simp [he]
  · unfold GetLast
    rw [h]
    by_cases hts : (p.get (p.index % 2)).Timestamp = 0 ∨
        (p.get ((p.index + 1) % 2)).Timestamp = 0
    · simp [hts]
    · by_cases he : (p.get ((p.index + 1) % 2)).Value.isSome <;>
        by_cases ho : (p.get (p.index % 2)).Value.isSome <;>
        simp [hts, he, ho]

/-- Witness for C5 amended: one recorded point gives no error for
`diff=false` and the insufficient-data error for `diff=true`. -/
theorem c5_witness :
    (GetLast (Index NewSearch [⟨"m".toList, 1, some 5, [("h".toList, "x".toList)]⟩])
        ("m".toList) (tagsString [("h".toList, "x".toList)]) false).2 = none ∧
    (GetLast (Index NewSearch [⟨"m".toList, 1, some 5, [("h".toList, "x".toList)]⟩])
        ("m".toList) (tagsString [("h".toList, "x".toList)]) true).2 =
      some GErr.needTwo := by
  have h := c5_amended
    (Index NewSearch [⟨"m".toList, 1, some 5, [("h".toList, "x".toList)]⟩])
    ("m".toList) (tagsString [("h".toList, "x".toList)])
    ⟨⟨"m".toList, 1, some 5, [("h".toList, "x".toList)]⟩, zeroDataPoint, 1⟩
    (by decide)
  refine ⟨?_, ?_⟩
  · rw [h.1]; decide
  · rw [h.2]; decide

/-- C6 counterexample: with `start = end` (start does not precede end) and
all other inputs valid, `AddSilence` raises no validation error at all — it
runs the preview and returns an empty mapping — although the claim's second
validation ("start not preceding end") requires its distinct error. -/
theorem c6_counterexample :
    AddSilence ⟨[], []⟩ 0 5 5 ("a".toList) [] false [] =
      ((some [], none), ⟨[], []⟩) := by
  decide

/-- C6 amended: the validations run in the stated order and each returns its
own distinct error with the schedule state unchanged, with the second
validation firing only when start is strictly after end (start equal to end
is accepted): zero start or end; start strictly after end; end already in
the past; both patterns empty; then a parse failure is returned verbatim,
also without mutation. -/
theorem c6_amended (sc : Schedule) (now start e : Int) (alert tagList : Str)
    (confirm : Bool) (edit : Str) :
    ((start = 0 ∨ e = 0) →
      AddSilence sc now start e alert tagList confirm edit =
        ((none, some .bothStartEnd), sc)) ∧
    (¬(start = 0 ∨ e = 0) → e < start →
      AddSilence sc now start e alert tagList confirm edit =
        ((none, some .startBeforeEnd), sc)) ∧
    (¬(start = 0 ∨ e = 0) → ¬ e < start → 0 < now - e →
      AddSilence sc now start e alert tagList confirm edit =
        ((none, some .endInPast), sc)) ∧
    (¬(start = 0 ∨ e = 0) → ¬ e < start → ¬ 0 < now - e →
      alert = [] ∧ tagList = [] →
      AddSilence sc now start e alert tagList confirm edit =
        ((none, some .alertOrTags), sc)) ∧
    (¬(start = 0 ∨ e = 0) → ¬ e < start → ¬ 0 < now - e →
      ¬(alert = [] ∧ tagList = []) →
      ParseAlertKey (alert ++ '{' :: tagList ++ ['}']) = none →
      AddSilence sc now start e alert tagList confirm edit =
        ((none, some .parseErr), sc)) := by
  refine ⟨?_, ?_, ?_, ?_, ?_⟩
  · intro h
    simp [AddSilence, h]
  · intro h1 h2
    simp [AddSilence, h1, h2]
  · intro h1 h2 h3
    simp [AddSilence, h1, h2, h3]
  · intro h1 h2 h3 h4
    simp [AddSilence, h1, h2, h3, h4]
  · intro h1 h2 h3 h4 h5
    unfold AddSilence
    rw [if_neg h1, if_neg h2, if_neg h3, if_neg h4, h5]

/-- Witness for C6 amended: each validation branch at a concrete input. -/
theorem c6_witness :
    AddSilence ⟨[], []⟩ 0 0 5 ("a".toList) [] false [] =
      ((none, some .bothStartEnd), ⟨[], []⟩) ∧
    AddSilence ⟨[], []⟩ 0 6 5 ("a".toList) [] false [] =
      ((none, some .startBeforeEnd), ⟨[], []⟩) ∧
    AddSilence ⟨[], []⟩ 9 5 6 ("a".toList) [] false [] =
      ((none, some .endInPast), ⟨[], []⟩) ∧
    AddSilence ⟨[], []⟩ 0 5 6 [] [] false [] =
      ((none, some .alertOrTags), ⟨[], []⟩) ∧
    AddSilence ⟨[], []⟩ 0 5 6 (['a', '{']) [] false [] =
      ((none, some .parseErr), ⟨[], []⟩) :=
  ⟨(c6_amended ⟨[], []⟩ 0 0 5 ("a".toList) [] false []).1 (by decide),
   (c6_amended ⟨[], []⟩ 0 6 5 ("a".toList) [] false []).2.1 (by decide) (by decide),
   (c6_amended ⟨[], []⟩ 9 5 6 ("a".toList) [] false []).2.2.1 (by decide)
     (by decide) (by decide),
   (c6_amended ⟨[], []⟩ 0 5 6 [] [] false []).2.2.2.1 (by decide) (by decide)
     (by decide) (by decide),
   (c6_amended ⟨[], []⟩ 0 5 6 (['a', '{']) [] false []).2.2.2.2 (by decide)
     (by decide) (by decide) (by decide) (by decide)⟩

/-- C2 counterexample: after ingesting timestamps 1, 2, 4 the cached pair
holds the points with timestamps 4 and 2; ingesting a fourth point with
timestamp 3 — strictly less than 4 — nevertheless replaces the older slot,
because the acceptance test compares against the write slot (timestamp 2),
so the cached pair does change. -/
theorem c2_counterexample :
    lookupA (Index NewSearch
        [⟨"m".toList, 1, some 1, [("h".toList, "x".toList)]⟩,
         ⟨"m".toList, 2, some 2, [("h".toList, "x".toList)]⟩,
         ⟨"m".toList, 4, some 4, [("h".toList, "x".toList)]⟩]).Last
      (MetricTagSet.key ⟨"m".toList, [("h".toList, "x".toList)]⟩) =
      some ⟨⟨"m".toList, 4, some 4, [("h".toList, "x".toList)]⟩,
            ⟨"m".toList, 2, some 2, [("h".toList, "x".toList)]⟩, 3⟩ ∧
    lookupA (Index (Index NewSearch
        [⟨"m".toList, 1, some 1, [("h".toList, "x".toList)]⟩,
         ⟨"m".toList, 2, some 2, [("h".toList, "x".toList)]⟩,
         ⟨"m".toList, 4, some 4, [("h".toList, "x".toList)]⟩])
        [⟨"m".toList, 3, some 8, [("h".toList, "x".toList)]⟩]).Last
      (MetricTagSet.key ⟨"m".toList, [("h".toList, "x".toList)]⟩) =
      some ⟨⟨"m".toList, 4, some 4, [("h".toList, "x".toList)]⟩,
            ⟨"m".toList, 3, some 8, [("h".toList, "x".toList)]⟩, 4⟩ := by
  constructor <;> decide

/-- C2 amended: for positive strictly increasing timestamps, after ingesting
the three points in order `GetLast(diff=true)` returns
`(v3 - v2) / (t3 - t2)` with no error; a fourth point whose timestamp is not
strictly greater than the older stored point (the one in the write slot,
with timestamp `t2`) is rejected, leaving the cached pair and the `GetLast`
result unchanged.  (A fourth timestamp strictly between `t2` and `t3` is
promoted — see the counterexample.) -/
theorem c2_amended (m : Str) (tg : TagSet) (t1 t2 t3 t0 : Int) (v1 v2 v3 : Rat)
    (w : Option Rat) (s3 s4 : Search)
    (h1 : 0 < t1) (h12 : t1 < t2) (h23 : t2 < t3) (h02 : t0 ≤ t2)
    (hs3 : s3 = Index NewSearch
      [⟨m, t1, some v1, tg⟩, ⟨m, t2, some v2, tg⟩, ⟨m, t3, some v3, tg⟩])
    (hs4 : s4 = Index s3 [⟨m, t0, w, tg⟩]) :
    GetLast s3 m (tagsString tg) true =
      ((v3 - v2) / ((t3 - t2 : Int) : Rat), none) ∧
    s4.Last = s3.Last ∧
    GetLast s4 m (tagsString tg) true = GetLast s3 m (tagsString tg) true := by
  subst hs4
  subst hs3
  have hlast3 := three_point_last m tg t1 t2 t3 (some v1) (some v2) (some v3)
    h1 (by omega) (by omega)
  have hkey : MetricTagSet.key ⟨m, tg⟩ = m ++ tagsString tg := rfl
  have hlook : lookupA (Index NewSearch
      [⟨m, t1, some v1, tg⟩, ⟨m, t2, some v2, tg⟩, ⟨m, t3, some v3, tg⟩]).Last
      (m ++ tagsString tg) =
      some ⟨⟨m, t3, some v3, tg⟩, ⟨m, t2, some v2, tg⟩, 3⟩ := by
    rw [hlast3, ← hkey]
    simp [lookupA]
  have he3 : ((⟨⟨m, t3, some v3, tg⟩, ⟨m, t2, some v2, tg⟩, 3⟩ : Pair).get
      (((⟨⟨m, t3, some v3, tg⟩, ⟨m, t2, some v2, tg⟩, 3⟩ : Pair).index + 1) % 2)).Value =
      some v3 := by simp [Pair.get]
  have ho3 : ((⟨⟨m, t3, some v3, tg⟩, ⟨m, t2, some v2, tg⟩, 3⟩ : Pair).get
      ((⟨⟨m, t3, some v3, tg⟩, ⟨m, t2, some v2, tg⟩, 3⟩ : Pair).index % 2)).Value =
      some v2 := by simp [Pair.get]
  have hga : GetLast (Index NewSearch
      [⟨m, t1, some v1, tg⟩, ⟨m, t2, some v2, tg⟩, ⟨m, t3, some v3, tg⟩])
      m (tagsString tg) true =
      ((v3 - v2) / ((t3 - t2 : Int) : Rat), none) := by
    have hg := GetLast_diff_of_lookup hlook
      (by simp [Pair.get]; omega) he3 ho3
    simpa [Pair.get] using hg
  have e4 : Index (Index NewSearch
      [⟨m, t1, some v1, tg⟩, ⟨m, t2, some v2, tg⟩, ⟨m, t3, some v3, tg⟩])
      [⟨m, t0, w, tg⟩] =
      indexPoint (Index NewSearch
        [⟨m, t1, some v1, tg⟩, ⟨m, t2, some v2, tg⟩, ⟨m, t3, some v3, tg⟩])
        ⟨m, t0, w, tg⟩ := by
    rw [Index_of_copy (Index_copy_true _ _)]
    rfl
  have hlook2 : lookupA (Index NewSearch
      [⟨m, t1, some v1, tg⟩, ⟨m, t2, some v2, tg⟩, ⟨m, t3, some v3, tg⟩]).Last
      (MetricTagSet.key ⟨m, tg⟩) =
      some ⟨⟨m, t3, some v3, tg⟩, ⟨m, t2, some v2, tg⟩, 3⟩ := by
    rw [hlast3]
    simp [lookupA]
  have hrej : (indexPoint (Index NewSearch
      [⟨m, t1, some v1, tg⟩, ⟨m, t2, some v2, tg⟩, ⟨m, t3, some v3, tg⟩])
      ⟨m, t0, w, tg⟩).Last =
      (Index NewSearch
        [⟨m, t1, some v1, tg⟩, ⟨m, t2, some v2, tg⟩, ⟨m, t3, some v3, tg⟩]).Last :=
    indexPoint_Last_reject hlook2 (by simp [Pair.get]; omega)
  have hb : (Index (Index NewSearch
      [⟨m, t1, some v1, tg⟩, ⟨m, t2, some v2, tg⟩, ⟨m, t3, some v3, tg⟩])
      [⟨m, t0, w, tg⟩]).Last =
      (Index NewSearch
        [⟨m, t1, some v1, tg⟩, ⟨m, t2, some v2, tg⟩, ⟨m, t3, some v3, tg⟩]).Last := by
    rw [e4]
    exact hrej
  exact ⟨hga, hb, GetLast_congr hb m (tagsString tg) true⟩

/-- Witness for C2 amended at timestamps 1, 2, 4 with a rejected fourth
point at timestamp 2. -/
theorem c2_witness :
    GetLast (Index NewSearch
        [⟨"m".toList, 1, some 1, [("h".toList, "x".toList)]⟩,
         ⟨"m".toList, 2, some 2, [("h".toList, "x".toList)]⟩,
         ⟨"m".toList, 4, some 3, [("h".toList, "x".toList)]⟩])
      ("m".toList) (tagsString [("h".toList, "x".toList)]) true =
      (((3 : Rat) - 2) / ((4 - 2 : Int) : Rat), none) ∧
    (Index (Index NewSearch
        [⟨"m".toList, 1, some 1, [("h".toList, "x".toList)]⟩,
         ⟨"m".toList, 2, some 2, [("h".toList, "x".toList)]⟩,
         ⟨"m".toList, 4, some 3, [("h".toList, "x".toList)]⟩])
        [⟨"m".toList, 2, none, [("h".toList, "x".toList)]⟩]).Last =
      (Index NewSearch
        [⟨"m".toList, 1, some 1, [("h".toList, "x".toList)]⟩,
         ⟨"m".toList, 2, some 2, [("h".toList, "x".toList)]⟩,
         ⟨"m".toList, 4, some 3, [("h".toList, "x".toList)]⟩]).Last := by
  have h := c2_amended ("m".toList) [("h".toList, "x".toList)] 1 2 4 2 1 2 3 none
    _ _ (by decide) (by decide) (by decide) (by decide) rfl rfl
  exact ⟨h.1, h.2.1⟩

end Bosun
